import Mathlib

/-!
Verification of the summarization orchestration layer of the
powerpoint-tools repository against its natural-language specification.

The Python sources are shallowly embedded: Python strings are modelled as
`List Char` (named `Str` below), the retry loop of `summarize_note`
(src/main.py) is modelled with an explicit fuel argument equal to the
number of remaining loop iterations, provider adapters are abstracted by
an oracle giving the result of each attempt (the adapters in
src/summarizers.py wrap every failure into `SummarizationError`), and the
orchestration `for` loop of `main` (src/main.py) becomes a `List.map`.
-/

/-- Python strings are modelled as lists of characters. -/
abbrev Str := List Char

/-- Result of one invocation of a provider adapter: either a summary
string or a `SummarizationError` carrying a message (the adapters in
src/summarizers.py catch every exception and re-raise it as
`SummarizationError`). -/
inductive AttemptResult where
  | ok (s : Str) : AttemptResult
  | err (msg : Str) : AttemptResult
deriving DecidableEq, Repr

/-- Observable behaviour of one call to `summarize_note` (src/main.py,
lines 16-33): the returned value (`none` models Python falling off the
end of the `for` loop and returning `None`), the number of loop
iterations that ran the `try` body, the number of provider invocations,
and the list of executed backoff sleep durations, in order. -/
structure SummRun where
  result : Option Str
  attempts : Nat
  calls : Nat
  sleeps : List Nat
deriving DecidableEq, Repr

/-- Python string prefix used for the degraded outcome
("Error in summarization: " followed by the exception message),
src/main.py line 30. -/
def errorSummary (msg : Str) : Str := "Error in summarization: ".toList ++ msg

/-- Dispatch on the `ai` argument, src/main.py lines 19-26: the three
known provider names invoke the selected adapter (abstracted by the
oracle `b`, which gives the result of the attempt-th invocation); any
other name returns the note unchanged.  The second component records
whether a provider call was made. -/
def providerCall (ai : String) (b : Nat → AttemptResult) (note : Str) (attempt : Nat) :
    AttemptResult × Nat :=
  if ai = "openai" then (b attempt, 1)
  else if ai = "watson" then (b attempt, 1)
  else if ai = "claude" then (b attempt, 1)
  else (AttemptResult.ok note, 0)

/-- The retry loop of `summarize_note`, src/main.py lines 17-33.
`fuel` is the number of remaining iterations of
`for attempt in range(max_retries)` and `attempt` the current 0-based
attempt index; the wrapper below starts with `fuel = maxRetries` and
`attempt = 0`.  On `SummarizationError` at the final attempt the error
is mapped to the `errorSummary` string; otherwise `2 ^ attempt` time
units are slept and the loop retries. -/
def summarizeNoteGo (note : Str) (ai : String) (b : Nat → AttemptResult)
    (maxRetries : Nat) : Nat → Nat → SummRun
  | 0, _ => ⟨none, 0, 0, []⟩
  | fuel + 1, attempt =>
    match providerCall ai b note attempt with
    | (AttemptResult.ok s, c) => ⟨some s, 1, c, []⟩
    | (AttemptResult.err msg, c) =>
      if attempt = maxRetries - 1 then
        ⟨some (errorSummary msg), 1, c, []⟩
      else
        let rest := summarizeNoteGo note ai b maxRetries fuel (attempt + 1)
        ⟨rest.result, rest.attempts + 1, c + rest.calls, 2 ^ attempt :: rest.sleeps⟩

/-- `summarize_note` of src/main.py: run the retry loop from attempt 0
with `maxRetries` iterations available. -/
def summarize_note (note : Str) (ai : String) (b : Nat → AttemptResult)
    (maxRetries : Nat) : SummRun :=
  summarizeNoteGo note ai b maxRetries maxRetries 0

/-- Sentinel emitted by extraction when a notes slide exists but is empty
(src/extractors.py line 33). -/
def sentinelNoNotesFound : Str := "No notes found.".toList

/-- Sentinel emitted by extraction when a slide has no notes slide
(src/extractors.py line 35). -/
def sentinelNoNotesSlide : Str := "No notes slide.".toList

/-- Outcome of processing one text unit in the orchestration loop of
`main`, src/main.py lines 75-87: the slide index, the summary slot (the
second component of the appended tuple; `none` models Python `None`),
the note text, and the number of provider invocations made for this
unit. -/
structure UnitOutcome where
  index : Nat
  summary : Option Str
  originalText : Str
  calls : Nat
deriving DecidableEq, Repr

/-- Body of the orchestration loop for one `(slide_number, note)` pair,
src/main.py lines 76-82: sentinel notes and notes shorter than
`min_characters` are passed through unchanged with no provider call;
otherwise the unit is dispatched through `summarize_note`.  `beh` gives
each slide's provider-attempt oracle. -/
def processUnit (ai : String) (beh : Nat → Nat → AttemptResult)
    (minChars maxRetries : Nat) (u : Nat × Str) : UnitOutcome :=
  match u with
  | (slide, note) =>
    if note = sentinelNoNotesFound ∨ note = sentinelNoNotesSlide then
      ⟨slide, some note, note, 0⟩
    else if note.length < minChars then
      ⟨slide, some note, note, 0⟩
    else
      let run := summarize_note note ai (beh slide) maxRetries
      ⟨slide, run.result, note, run.calls⟩

/-- The orchestration loop of `main`, src/main.py lines 74-87 (the
non-extract-only branch): one output triple `(slide_number, summary,
note)` is appended per input unit, in input order; in summary-only mode
the note component is the empty string. -/
def mainLoop (ai : String) (beh : Nat → Nat → AttemptResult)
    (minChars maxRetries : Nat) (summaryOnly : Bool)
    (notes : List (Nat × Str)) : List (Nat × Option Str × Str) :=
  notes.map (fun u =>
    let o := processUnit ai beh minChars maxRetries u
    (o.index, o.summary, if summaryOnly then [] else o.originalText))


/-- Selecting a known provider name always invokes the adapter oracle. -/
lemma providerCall_known {ai : String} (b : Nat → AttemptResult) (note : Str) (k : Nat)
    (h : ai = "openai" ∨ ai = "watson" ∨ ai = "claude") :
    providerCall ai b note k = (b k, 1) := by
  rcases h with h | h | h <;> subst h <;> rfl

/-- One-step unfolding of the retry loop. -/
lemma summarizeNoteGo_succ (note : Str) (ai : String) (b : Nat → AttemptResult)
    (maxRetries fuel attempt : Nat) :
    summarizeNoteGo note ai b maxRetries (fuel + 1) attempt
      = match providerCall ai b note attempt with
        | (AttemptResult.ok s, c) => ⟨some s, 1, c, []⟩
        | (AttemptResult.err msg, c) =>
          if attempt = maxRetries - 1 then
            ⟨some (errorSummary msg), 1, c, []⟩
          else
            let rest := summarizeNoteGo note ai b maxRetries fuel (attempt + 1)
            ⟨rest.result, rest.attempts + 1, c + rest.calls, 2 ^ attempt :: rest.sleeps⟩ := rfl

/-- Retry-loop characterization when every attempt fails: starting at
attempt `a` with `f + 1` iterations left and `a + f = maxRetries - 1`,
the loop runs all remaining attempts, sleeping `2 ^ attempt` time units
after each non-final failed attempt, and returns the degraded error
summary built from the final attempt's message. -/
lemma summarizeNoteGo_allfail (note : Str) (ai : String) (b : Nat → AttemptResult)
    (maxRetries : Nat) (msg : Nat → Str)
    (hai : ai = "openai" ∨ ai = "watson" ∨ ai = "claude")
    (hb : ∀ k, b k = AttemptResult.err (msg k)) :
    ∀ f a, a + f = maxRetries - 1 →
      summarizeNoteGo note ai b maxRetries (f + 1) a
        = ⟨some (errorSummary (msg (maxRetries - 1))), f + 1, f + 1,
            (List.range' a f).map (2 ^ ·)⟩ := by
  intro f
  induction f with
  | zero =>
    intro a ha
    have ha' : a = maxRetries - 1 := by omega
    subst ha'
    rw [summarizeNoteGo_succ, providerCall_known b note _ hai, hb]
    simp
  | succ g ih =>
    intro a ha
    have hne : ¬ a = maxRetries - 1 := by omega
    rw [summarizeNoteGo_succ, providerCall_known b note _ hai, hb]
    simp only [hne, if_false, ih (a + 1) (by omega)]
    refine SummRun.mk.injEq .. |>.mpr ?_
    refine ⟨rfl, rfl, by omega, ?_⟩
    simp [List.range'_succ]

/-- An always-failing provider exhausts all `maxRetries ≥ 1` attempts:
the result is the error summary of the last message, the loop made
exactly `maxRetries` attempts and provider calls, and it slept
`1, 2, 4, …` between attempts (never after the last one). -/
lemma summarize_note_allfail (note : Str) (ai : String) (b : Nat → AttemptResult)
    (maxRetries : Nat) (msg : Nat → Str)
    (hai : ai = "openai" ∨ ai = "watson" ∨ ai = "claude")
    (hb : ∀ k, b k = AttemptResult.err (msg k))
    (hmr : 1 ≤ maxRetries) :
    summarize_note note ai b maxRetries
      = ⟨some (errorSummary (msg (maxRetries - 1))), maxRetries, maxRetries,
          (List.range' 0 (maxRetries - 1)).map (2 ^ ·)⟩ := by
  have h1 : maxRetries = (maxRetries - 1) + 1 := by omega
  have h := summarizeNoteGo_allfail note ai b maxRetries msg hai hb (maxRetries - 1) 0 (by omega)
  rw [← h1] at h
  exact h

/-- A dispatched unit with a known provider makes at least one provider
call. -/
lemma summarize_note_calls_pos (note : Str) (ai : String) (b : Nat → AttemptResult)
    (maxRetries : Nat)
    (hai : ai = "openai" ∨ ai = "watson" ∨ ai = "claude")
    (hmr : 1 ≤ maxRetries) :
    1 ≤ (summarize_note note ai b maxRetries).calls := by
  obtain ⟨f, rfl⟩ : ∃ f, maxRetries = f + 1 := ⟨maxRetries - 1, by omega⟩
  rw [summarize_note, summarizeNoteGo_succ, providerCall_known b note _ hai]
  cases b 0 with
  | ok s => simp
  | err m =>
    simp only
    split
    · simp
    · simp

/-- C2: given a provider operation that always fails with a transient
SummarizationError and maxRetries = 3, `summarize_note` produces the
Failed outcome ("Error in summarization: …" built from the last
message) after exactly 3 attempts of the operation, with backoff sleeps
of 1 and 2 time units between attempts and no sleep after the final
attempt. -/
theorem c2_retry_exhaustion (note : Str) (msg : Nat → Str) :
    summarize_note note "claude" (fun k => AttemptResult.err (msg k)) 3
      = ⟨some (errorSummary (msg 2)), 3, 3, [1, 2]⟩ := rfl

/-- C9 counterexample: with maxRetries = 0 the loop body never runs, so
`summarize_note` performs zero attempts (not the single attempt the
claim states) and returns Python `None`. -/
theorem c9_zero_retries_counterexample :
    summarize_note [] "claude" (fun _ => AttemptResult.ok []) 0 = ⟨none, 0, 0, []⟩
    ∧ (summarize_note [] "claude" (fun _ => AttemptResult.ok []) 0).attempts ≠ 1 := by
  exact ⟨rfl, by decide⟩

/-- C9 amended: with maxRetries = 1, `summarize_note` performs exactly
one attempt of the operation and executes no backoff sleep; with
maxRetries = 0 it performs no attempt at all, executes no sleep, and
returns no result (Python `None`). -/
theorem c9_single_attempt (note : Str) (ai : String) (b : Nat → AttemptResult) :
    (summarize_note note ai b 1).attempts = 1
    ∧ (summarize_note note ai b 1).sleeps = []
    ∧ summarize_note note ai b 0 = ⟨none, 0, 0, []⟩ := by
  refine ⟨?_, ?_, rfl⟩ <;>
  · rw [summarize_note, summarizeNoteGo_succ]
    rcases hpc : providerCall ai b note 0 with ⟨res, c⟩
    cases res <;> simp

/-- C10: for every provider identifier other than "openai", "watson" and
"claude", and maxRetries ≥ 1, `summarize_note` returns the input note
unchanged after a single loop iteration, making no provider call and
executing no backoff sleep. -/
theorem c10_unknown_provider_identity (note : Str) (ai : String) (b : Nat → AttemptResult)
    (maxRetries : Nat)
    (hai : ¬(ai = "openai" ∨ ai = "watson" ∨ ai = "claude"))
    (hmr : 1 ≤ maxRetries) :
    summarize_note note ai b maxRetries = ⟨some note, 1, 0, []⟩ := by
  obtain ⟨f, rfl⟩ : ∃ f, maxRetries = f + 1 := ⟨maxRetries - 1, by omega⟩
  push_neg at hai
  rw [summarize_note, summarizeNoteGo_succ, providerCall]
  rw [if_neg hai.1, if_neg hai.2.1, if_neg hai.2.2]

/-- C10 witness: the unknown provider name "perplexity" with two retries
available returns the note unchanged with no provider call. -/
theorem c10_unknown_provider_identity_witness :
    summarize_note "hi".toList "perplexity" (fun _ => AttemptResult.err []) 2
      = ⟨some "hi".toList, 1, 0, []⟩ :=
  c10_unknown_provider_identity "hi".toList "perplexity" (fun _ => AttemptResult.err []) 2
    (by decide) (by omega)

/-- C7 counterexample: on the sentinel unit "No notes found." the
outcome's summary slot is NOT omitted — it is present and holds the
sentinel note text itself (src/main.py line 77 sets `summary = note`,
and the writers render a present summary slot as a Summary section) —
while no provider call is made.  This refutes the claim's
"summary omitted" conclusion. -/
theorem c7_summary_present_counterexample :
    (processUnit "claude" (fun _ _ => AttemptResult.ok []) 5 3
        (1, sentinelNoNotesFound)).summary = some sentinelNoNotesFound
    ∧ (processUnit "claude" (fun _ _ => AttemptResult.ok []) 5 3
        (1, sentinelNoNotesFound)).summary ≠ none
    ∧ (processUnit "claude" (fun _ _ => AttemptResult.ok []) 5 3
        (1, sentinelNoNotesFound)).calls = 0 := by
  decide

/-- C7 (amended): a unit whose text equals one of the extraction
sentinels is passed through by the orchestration loop with no provider
call, but its summary slot is not omitted: it carries the original
sentinel note text unchanged (`summary = note`). -/
theorem c7_sentinel_passthrough (ai : String) (beh : Nat → Nat → AttemptResult)
    (minChars maxRetries slide : Nat) (note : Str)
    (h : note = sentinelNoNotesFound ∨ note = sentinelNoNotesSlide) :
    processUnit ai beh minChars maxRetries (slide, note) = ⟨slide, some note, note, 0⟩ := by
  simp only [processUnit]
  rw [if_pos h]

/-- C7 witness: the "No notes found." sentinel is passed through with no
provider call. -/
theorem c7_sentinel_passthrough_witness :
    processUnit "claude" (fun _ _ => AttemptResult.ok []) 5 3 (1, sentinelNoNotesFound)
      = ⟨1, some sentinelNoNotesFound, sentinelNoNotesFound, 0⟩ :=
  c7_sentinel_passthrough "claude" (fun _ _ => AttemptResult.ok []) 5 3 1
    sentinelNoNotesFound (Or.inl rfl)

/-- C8: eligibility is inclusive at minChars: a non-sentinel unit of
length minChars - 1 is passed through with no provider call, while a
non-sentinel unit of length minChars is dispatched through
`summarize_note` and (for a known provider with maxRetries ≥ 1) at
least one provider call is made. -/
theorem c8_threshold_boundary (ai : String) (beh : Nat → Nat → AttemptResult)
    (minChars maxRetries slide : Nat) (short note : Str)
    (hshort : ¬(short = sentinelNoNotesFound ∨ short = sentinelNoNotesSlide))
    (hnote : ¬(note = sentinelNoNotesFound ∨ note = sentinelNoNotesSlide))
    (hlen1 : short.length + 1 = minChars)
    (hlen2 : note.length = minChars)
    (hai : ai = "openai" ∨ ai = "watson" ∨ ai = "claude")
    (hmr : 1 ≤ maxRetries) :
    processUnit ai beh minChars maxRetries (slide, short) = ⟨slide, some short, short, 0⟩
    ∧ processUnit ai beh minChars maxRetries (slide, note)
        = ⟨slide, (summarize_note note ai (beh slide) maxRetries).result, note,
            (summarize_note note ai (beh slide) maxRetries).calls⟩
    ∧ 1 ≤ (summarize_note note ai (beh slide) maxRetries).calls := by
  refine ⟨?_, ?_, summarize_note_calls_pos note ai (beh slide) maxRetries hai hmr⟩
  · simp only [processUnit]
    rw [if_neg hshort, if_pos (by omega)]
  · simp only [processUnit]
    rw [if_neg hnote, if_neg (by omega)]

/-- C8 witness: with minChars = 3, the 2-character note "ab" is passed
through with no provider call while the 3-character note "abc" is
dispatched and makes a provider call. -/
theorem c8_threshold_boundary_witness :
    processUnit "claude" (fun _ _ => AttemptResult.ok ['s']) 3 1 (1, "ab".toList)
      = ⟨1, some "ab".toList, "ab".toList, 0⟩
    ∧ processUnit "claude" (fun _ _ => AttemptResult.ok ['s']) 3 1 (1, "abc".toList)
        = ⟨1, (summarize_note "abc".toList "claude" (fun _ => AttemptResult.ok ['s']) 1).result,
            "abc".toList,
            (summarize_note "abc".toList "claude" (fun _ => AttemptResult.ok ['s']) 1).calls⟩
    ∧ 1 ≤ (summarize_note "abc".toList "claude" (fun _ => AttemptResult.ok ['s']) 1).calls :=
  c8_threshold_boundary "claude" (fun _ _ => AttemptResult.ok ['s']) 3 1 1
    "ab".toList "abc".toList (by decide) (by decide) (by decide) (by decide)
    (Or.inr (Or.inr rfl)) (by omega)

/-- Ascending runs `range' s n` are sorted by strict order. -/
lemma sorted_lt_range'_aux (s n : Nat) : List.Sorted (· < ·) (List.range' s n) := by
  induction n generalizing s with
  | zero => simp
  | succ k ih =>
    rw [List.range'_succ]
    refine List.sorted_cons.mpr ⟨fun b hb => ?_, ih (s + 1)⟩
    have := (List.mem_range'_1.mp hb).1
    omega

/-- Regex filter of `clean_text_for_xml` (src/extractors.py line 8):
only tab, newline, carriage return and the range \x20-\x7F are kept. -/
def clean_text_for_xml (t : Str) : Str :=
  t.filter (fun c => c = '\t' || c = '\n' || c = '\r' || (0x20 ≤ c.toNat && c.toNat ≤ 0x7F))

/-- Abstraction of one slide as seen by `extract_notes_from_presentation`
(src/extractors.py lines 27-38): either it has no notes slide, or it has
a notes text frame with raw text (the empty string also models a `None`
frame), or processing the slide raised an exception with a message. -/
inductive SlideModel where
  | noNotesSlide : SlideModel
  | notesText (raw : Str) : SlideModel
  | processingError (msg : Str) : SlideModel

/-- Text produced for one slide by the extraction loop
(src/extractors.py lines 28-38). -/
def extractNote : SlideModel → Str
  | SlideModel.noNotesSlide => sentinelNoNotesSlide
  | SlideModel.notesText raw =>
    let t := clean_text_for_xml raw
    if t = [] then sentinelNoNotesFound else t
  | SlideModel.processingError msg => "Error processing slide: ".toList ++ msg

/-- The extraction loop of `extract_notes_from_presentation`
(src/extractors.py lines 26-43): one `(i + 1, text)` pair per slide, in
slide order, with 1-based indices. -/
def extract_notes_from_presentation (slides : List SlideModel) : List (Nat × Str) :=
  slides.enum.map (fun p => (p.1 + 1, extractNote p.2))

/-- The outcome index of a processed unit is the unit's own index. -/
lemma processUnit_index (ai : String) (beh : Nat → Nat → AttemptResult)
    (minChars maxRetries : Nat) (u : Nat × Str) :
    (processUnit ai beh minChars maxRetries u).index = u.1 := by
  rcases u with ⟨slide, note⟩
  simp only [processUnit]
  split
  · rfl
  · split <;> rfl

/-- C1: for every presentation, the orchestration loop's output indices
are positionally identical to the extracted input indices, which are
exactly 1, 2, …, N; hence the output is sorted by index ascending, its
index set equals the input index set, and there are no duplicates and
no gaps — regardless of provider behaviour, thresholds, retry budget,
or which units are summarized, passed through or failed. -/
theorem c1_order_preservation (slides : List SlideModel) (ai : String)
    (beh : Nat → Nat → AttemptResult) (minChars maxRetries : Nat) (summaryOnly : Bool) :
    ((mainLoop ai beh minChars maxRetries summaryOnly
        (extract_notes_from_presentation slides)).map (fun t => t.1)
      = (extract_notes_from_presentation slides).map (fun t => t.1))
    ∧ ((extract_notes_from_presentation slides).map (fun t => t.1)
        = List.range' 1 slides.length)
    ∧ List.Sorted (· < ·)
        ((mainLoop ai beh minChars maxRetries summaryOnly
          (extract_notes_from_presentation slides)).map (fun t => t.1))
    ∧ ((mainLoop ai beh minChars maxRetries summaryOnly
        (extract_notes_from_presentation slides)).map (fun t => t.1)).Nodup := by
  have hmap : (mainLoop ai beh minChars maxRetries summaryOnly
      (extract_notes_from_presentation slides)).map (fun t => t.1)
      = (extract_notes_from_presentation slides).map (fun t => t.1) := by
    rw [mainLoop, List.map_map]
    refine List.map_congr_left (fun u _ => ?_)
    exact processUnit_index ai beh minChars maxRetries u
  have hrange : (extract_notes_from_presentation slides).map (fun t => t.1)
      = List.range' 1 slides.length := by
    rw [extract_notes_from_presentation, List.map_map]
    have : ((fun t => t.1) ∘ fun p : Nat × SlideModel => (p.1 + 1, extractNote p.2))
        = (fun p : Nat × SlideModel => p.1 + 1) := rfl
    rw [this]
    have h2 : (fun p : Nat × SlideModel => p.1 + 1)
        = (fun n => 1 + n) ∘ Prod.fst := by
      funext p
      simp [Nat.add_comm]
    rw [h2, ← List.map_map, List.enum_map_fst, ← List.range'_eq_map_range]
  refine ⟨hmap, hrange, ?_, ?_⟩
  · rw [hmap, hrange]
    exact sorted_lt_range'_aux 1 slides.length
  · rw [hmap, hrange]
    exact ((sorted_lt_range'_aux 1 slides.length).nodup)

/-- C3: the batch always completes — the loop yields exactly one outcome
per input unit — and a unit whose provider attempts all fail (every
per-unit error is a SummarizationError, the only fault the adapters in
src/summarizers.py let escape) yields, in place, a Failed outcome whose
summary slot carries the human-readable "Error in summarization: …"
string, while every sibling unit before and after it is processed
exactly as it would be on its own. -/
theorem c3_failure_isolation (ai : String) (beh : Nat → Nat → AttemptResult)
    (minChars maxRetries : Nat) (summaryOnly : Bool) :
    (∀ notes, (mainLoop ai beh minChars maxRetries summaryOnly notes).length = notes.length)
    ∧ (∀ (pre post : List (Nat × Str)) (slide : Nat) (note : Str) (msg : Nat → Str),
        (∀ k, beh slide k = AttemptResult.err (msg k)) →
        (ai = "openai" ∨ ai = "watson" ∨ ai = "claude") →
        1 ≤ maxRetries →
        ¬(note = sentinelNoNotesFound ∨ note = sentinelNoNotesSlide) →
        minChars ≤ note.length →
        mainLoop ai beh minChars maxRetries summaryOnly (pre ++ (slide, note) :: post)
          = mainLoop ai beh minChars maxRetries summaryOnly pre
            ++ (slide, some (errorSummary (msg (maxRetries - 1))),
                if summaryOnly then [] else note)
              :: mainLoop ai beh minChars maxRetries summaryOnly post) := by
  constructor
  · intro notes
    simp [mainLoop]
  · intro pre post slide note msg hb hai hmr hsent hlen
    have hunit : processUnit ai beh minChars maxRetries (slide, note)
        = ⟨slide, some (errorSummary (msg (maxRetries - 1))), note, maxRetries⟩ := by
      simp only [processUnit]
      rw [if_neg hsent, if_neg (by omega)]
      rw [summarize_note_allfail note ai (beh slide) maxRetries msg hai hb hmr]
    simp only [mainLoop, List.map_append, List.map_cons, hunit]

/-- C3 witness: in a three-unit batch whose middle unit always fails,
the middle outcome is the degraded error summary and the outer units
are processed as on their own. -/
theorem c3_failure_isolation_witness :
    mainLoop "claude" (fun _ _ => AttemptResult.err "boom".toList) 1 1 false
        ([(1, "aaaa".toList)] ++ (2, "cccc".toList) :: [(3, "bbbb".toList)])
      = mainLoop "claude" (fun _ _ => AttemptResult.err "boom".toList) 1 1 false
          [(1, "aaaa".toList)]
        ++ (2, some (errorSummary "boom".toList), if false then [] else "cccc".toList)
          :: mainLoop "claude" (fun _ _ => AttemptResult.err "boom".toList) 1 1 false
              [(3, "bbbb".toList)] :=
  (c3_failure_isolation "claude" (fun _ _ => AttemptResult.err "boom".toList) 1 1 false).2
    [(1, "aaaa".toList)] [(3, "bbbb".toList)] 2 "cccc".toList
    (fun _ => "boom".toList) (fun _ => rfl) (Or.inr (Or.inr rfl)) (by omega)
    (by decide) (by decide)

/-- ASCII whitespace recognised by Python `str.strip` (all inputs here
are ASCII, per `clean_text_for_xml`). -/
def isPySpace (c : Char) : Bool :=
  c = ' ' || c = '\t' || c = '\n' || c = '\r' || c = Char.ofNat 11 || c = Char.ofNat 12

/-- Python `str.lstrip()`. -/
def pyLStrip (s : Str) : Str := s.dropWhile isPySpace

/-- Python `str.rstrip()`. -/
def pyRStrip (s : Str) : Str := (s.reverse.dropWhile isPySpace).reverse

/-- Python `str.strip()`. -/
def pyStrip (s : Str) : Str := pyRStrip (pyLStrip s)

/-- Python `str.split(sep)` for a one-character separator: keeps empty
segments, and splitting the empty string gives one empty segment. -/
def splitOnChar (sep : Char) : Str → List Str
  | [] => [[]]
  | c :: cs =>
    if c = sep then [] :: splitOnChar sep cs
    else (splitOnChar sep cs).modifyHead (fun l => c :: l)

/-- Python `sep.join(parts)` for a one-character separator. -/
def joinChar (sep : Char) : List Str → Str
  | [] => []
  | [l] => l
  | l :: ls => l ++ sep :: joinChar sep ls

/-- The `while stripped_line.startswith('-') or
stripped_line.startswith(' ')` loop of `clean_summary`
(src/summarizers.py lines 28-29): repeatedly drop the first character
and left-strip.  `fuel` bounds the iterations; the wrapper passes the
string length, which always suffices since each step shortens the
string. -/
def stripDashSpaceFuel : Nat → Str → Str
  | 0, s => s
  | _ + 1, [] => []
  | fuel + 1, c :: cs =>
    if c = '-' ∨ c = ' ' then stripDashSpaceFuel fuel (pyLStrip cs) else c :: cs

/-- Leading-run removal of `-` and space characters with left-stripping,
as in `clean_summary`. -/
def stripDashSpace (s : Str) : Str := stripDashSpaceFuel s.length s

/-- Python `str.replace(pat, rep)` for the non-empty pattern
`p :: ps`: left-to-right scan replacing non-overlapping occurrences.
`fuel` bounds the scan; the wrapper passes the string length. -/
def pyReplaceFuel (p : Char) (ps rep : Str) : Nat → Str → Str
  | 0, s => s
  | _ + 1, [] => []
  | fuel + 1, c :: cs =>
    if (p :: ps).isPrefixOf (c :: cs) then
      rep ++ pyReplaceFuel p ps rep fuel (cs.drop ps.length)
    else
      c :: pyReplaceFuel p ps rep fuel cs

/-- Python `str.replace` for a non-empty pattern given as head and
tail. -/
def pyReplace (p : Char) (ps rep s : Str) : Str := pyReplaceFuel p ps rep s.length s

/-- `clean_summary` of src/summarizers.py lines 18-42: split into lines,
strip each line, keep non-empty stripped lines, remove their leading
run of `-`/space characters, prefix `"- "`, join with newlines, and
replace `"- -"` occurrences by `"-"`. -/
def clean_summary (s : Str) : Str :=
  pyReplace '-' [' ', '-'] ['-']
    (joinChar '\n'
      ((splitOnChar '\n' s).filterMap (fun line =>
        let stripped := pyStrip line
        if stripped = [] then none
        else some ('-' :: ' ' :: stripDashSpace stripped))))

/-- Bullet construction of the Watson success path
(src/summarizers.py lines 141-142): split the provider summary on `.`,
keep sentences that are non-empty after stripping, and prefix each
stripped sentence with `"- "`. -/
def summarize_with_watson_bullets (summary : Str) : List Str :=
  (splitOnChar '.' summary).filterMap (fun sentence =>
    if pyStrip sentence = [] then none else some ('-' :: ' ' :: pyStrip sentence))

/-- Return value of the Watson success path (src/summarizers.py line
143): the bullets joined with newlines — with no further clean-up. -/
def summarize_with_watson_success (summary : Str) : Str :=
  joinChar '\n' (summarize_with_watson_bullets summary)

/-- Modelled from the spec: the behaviour section 4.4 describes for the
Watson variant — one bullet per non-empty sentence, followed by the
shared `cleanSummary` clean-up step (the step the other two variants
apply, which is absent from `summarize_with_watson` in the source). -/
def watsonSpecPipeline (summary : Str) : Str :=
  clean_summary (summarize_with_watson_success summary)

/-- C4 counterexample: the input line "---" is non-empty after
whitespace stripping but becomes empty after the leading `-`/space run
is removed; the claim says such a line is dropped, yet `clean_summary`
keeps it as the bare marker line "- " (the emptiness test in the source
runs before the dash-strip, not after). -/
theorem c4_dropped_line_counterexample :
    pyStrip ['-', '-', '-'] ≠ []
    ∧ stripDashSpace (pyStrip ['-', '-', '-']) = []
    ∧ clean_summary ['-', '-', '-'] = ['-', ' ']
    ∧ clean_summary ['-', '-', '-'] ≠ [] := by decide

/-- C5 counterexample: `clean_summary` is not idempotent.  On
"x - - -" one application yields "- x - -" (the single left-to-right
replacement pass leaves a residual "- -"), and a second application
yields the different string "- x -". -/
theorem c5_idempotence_counterexample :
    clean_summary (clean_summary ['x', ' ', '-', ' ', '-', ' ', '-'])
      ≠ clean_summary ['x', ' ', '-', ' ', '-', ' ', '-'] := by decide

/-- C6 counterexample: on provider output "-a" the Watson success path
returns "- -a", while the spec-described pipeline (bullets then the
shared `cleanSummary` step) returns "- a": the source applies no
clean-up after building the bullets. -/
theorem c6_watson_counterexample :
    summarize_with_watson_success ['-', 'a'] = ['-', ' ', '-', 'a']
    ∧ watsonSpecPipeline ['-', 'a'] = ['-', ' ', 'a']
    ∧ summarize_with_watson_success ['-', 'a'] ≠ watsonSpecPipeline ['-', 'a'] := by decide

/-- Keeping non-empty stripped elements with a post-map equals
map-filter-map. -/
lemma filterMap_strip_eq (l : List Str) (g : Str → Str) :
    l.filterMap (fun x => if pyStrip x = [] then none else some (g (pyStrip x)))
      = ((l.map pyStrip).filter (fun t => !t.isEmpty)).map g := by
  induction l with
  | nil => rfl
  | cons a l ih =>
    by_cases h : pyStrip a = [] <;>
      simp [h, ih, List.filterMap_cons, List.isEmpty_iff]

/-- C6 amended: the Watson variant splits the provider summary on the
period character, keeps the sentences that are non-empty after
stripping, produces exactly one "- "-prefixed bullet per such sentence,
and joins them with newlines — without applying the shared
`clean_summary` step. -/
theorem c6_watson_amended (s : Str) :
    summarize_with_watson_success s
      = joinChar '\n'
          ((((splitOnChar '.' s).map pyStrip).filter (fun t => !t.isEmpty)).map
            (fun t => '-' :: ' ' :: t))
    ∧ (summarize_with_watson_bullets s).length
        = (((splitOnChar '.' s).map pyStrip).filter (fun t => !t.isEmpty)).length := by
  have h := filterMap_strip_eq (splitOnChar '.' s) (fun t => '-' :: ' ' :: t)
  constructor
  · rw [summarize_with_watson_success, summarize_with_watson_bullets, h]
  · rw [summarize_with_watson_bullets, h, List.length_map]

/-- Appending a non-empty list on the right determines the last element. -/
lemma getLast?_append_right (a b : Str) (h : b ≠ []) : (a ++ b).getLast? = b.getLast? := by
  rw [List.getLast?_append]
  cases hb : b.getLast? with
  | none => exact absurd (List.getLast?_eq_none_iff.mp hb) h
  | some x => rfl

/-- The first character surviving `dropWhile` falsifies the predicate. -/
lemma dropWhile_head_false (p : Char → Bool) (l xs : Str) (x : Char)
    (h : l.dropWhile p = x :: xs) : p x = false := by
  have h2 := List.head?_dropWhile_not p l
  rw [h] at h2
  simpa using h2

/-- Left-stripping never lengthens a string. -/
lemma pyLStrip_length_le (s : Str) : (pyLStrip s).length ≤ s.length :=
  (List.dropWhile_suffix isPySpace).length_le

/-- The fuel argument of `stripDashSpaceFuel` is irrelevant once it
covers the string length. -/
lemma stripDashSpaceFuel_congr :
    ∀ (f1 f2 : Nat) (s : Str), s.length ≤ f1 → s.length ≤ f2 →
      stripDashSpaceFuel f1 s = stripDashSpaceFuel f2 s := by
  intro f1
  induction f1 with
  | zero =>
    intro f2 s h1 h2
    have hs : s = [] := List.length_eq_zero.mp (Nat.le_zero.mp h1)
    subst hs
    cases f2 <;> rfl
  | succ g ih =>
    intro f2 s h1 h2
    cases s with
    | nil => cases f2 <;> rfl
    | cons c cs =>
      cases f2 with
      | zero => simp at h2
      | succ g2 =>
        simp only [stripDashSpaceFuel]
        by_cases hc : c = '-' ∨ c = ' '
        · rw [if_pos hc, if_pos hc]
          have hlen := pyLStrip_length_le cs
          simp only [List.length_cons] at h1 h2
          exact ih g2 (pyLStrip cs) (by omega) (by omega)
        · rw [if_neg hc, if_neg hc]

/-- Cons-step equation for `stripDashSpace`. -/
lemma stripDashSpace_cons (c : Char) (cs : Str) :
    stripDashSpace (c :: cs)
      = if c = '-' ∨ c = ' ' then stripDashSpace (pyLStrip cs) else c :: cs := by
  show stripDashSpaceFuel (c :: cs).length (c :: cs) = _
  simp only [stripDashSpaceFuel, List.length_cons]
  by_cases hc : c = '-' ∨ c = ' '
  · rw [if_pos hc, if_pos hc]
    exact stripDashSpaceFuel_congr cs.length (pyLStrip cs).length (pyLStrip cs)
      (pyLStrip_length_le cs) le_rfl
  · rw [if_neg hc, if_neg hc]

/-- Dropping never lengthens a string. -/
lemma drop_length_le (n : Nat) (l : Str) : (l.drop n).length ≤ l.length := by
  rw [List.length_drop]
  omega

/-- The fuel argument of `pyReplaceFuel` is irrelevant once it covers
the string length. -/
lemma pyReplaceFuel_congr (p : Char) (ps rep : Str) :
    ∀ (f1 f2 : Nat) (s : Str), s.length ≤ f1 → s.length ≤ f2 →
      pyReplaceFuel p ps rep f1 s = pyReplaceFuel p ps rep f2 s := by
  intro f1
  induction f1 with
  | zero =>
    intro f2 s h1 h2
    have hs : s = [] := List.length_eq_zero.mp (Nat.le_zero.mp h1)
    subst hs
    cases f2 <;> rfl
  | succ g ih =>
    intro f2 s h1 h2
    cases s with
    | nil => cases f2 <;> rfl
    | cons c cs =>
      cases f2 with
      | zero => simp at h2
      | succ g2 =>
        simp only [pyReplaceFuel]
        by_cases hc : (p :: ps).isPrefixOf (c :: cs) = true
        · rw [if_pos hc, if_pos hc]
          have hlen := drop_length_le ps.length cs
          simp only [List.length_cons] at h1 h2
          rw [ih g2 (cs.drop ps.length) (by omega) (by omega)]
        · rw [if_neg hc, if_neg hc]
          have hlen : cs.length ≤ g ∧ cs.length ≤ g2 := by
            simp only [List.length_cons] at h1 h2
            omega
          rw [ih g2 cs hlen.1 hlen.2]

/-- Cons-step equation for `pyReplace`. -/
lemma pyReplace_cons (p : Char) (ps rep : Str) (c : Char) (cs : Str) :
    pyReplace p ps rep (c :: cs)
      = if (p :: ps).isPrefixOf (c :: cs) then
          rep ++ pyReplace p ps rep (cs.drop ps.length)
        else
          c :: pyReplace p ps rep cs := by
  show pyReplaceFuel p ps rep (c :: cs).length (c :: cs) = _
  simp only [pyReplaceFuel, List.length_cons]
  by_cases hc : (p :: ps).isPrefixOf (c :: cs) = true
  · rw [if_pos hc, if_pos hc]
    rw [pyReplaceFuel_congr p ps rep cs.length (cs.drop ps.length).length (cs.drop ps.length)
      (drop_length_le ps.length cs) le_rfl]
    rfl
  · rw [if_neg hc, if_neg hc]
    rfl

/-- Boolean list-prefix test as an existential. -/
lemma prefixOf_iff_append : ∀ (u v : Str), u.isPrefixOf v = true ↔ ∃ t, u ++ t = v := by
  intro u
  induction u with
  | nil =>
    intro v
    simp [List.isPrefixOf]
  | cons a as ih =>
    intro v
    cases v with
    | nil => simp [List.isPrefixOf]
    | cons b bs =>
      simp only [List.isPrefixOf, Bool.and_eq_true, beq_iff_eq, ih bs, List.cons_append,
        List.cons.injEq]
      constructor
      · rintro ⟨rfl, t, rfl⟩
        exact ⟨t, rfl, rfl⟩
      · rintro ⟨t, rfl, rfl⟩
        exact ⟨rfl, t, rfl⟩

/-- A prefix of `a` stays a prefix after appending. -/
lemma prefixOf_extend (u a t : Str) (h : u.isPrefixOf a = true) :
    u.isPrefixOf (a ++ t) = true := by
  obtain ⟨w, rfl⟩ := (prefixOf_iff_append u a).mp h
  exact (prefixOf_iff_append u ((u ++ w) ++ t)).mpr ⟨w ++ t, by simp⟩

/-- A pattern avoiding the separator that matches across `a ++ x :: b`
must lie entirely inside `a`. -/
lemma prefixOf_through_sep (x : Char) (b : Str) :
    ∀ (u a : Str), x ∉ u → u.isPrefixOf (a ++ x :: b) = true →
      u.isPrefixOf a = true ∧ u.length ≤ a.length := by
  intro u
  induction u with
  | nil =>
    intro a _ _
    refine ⟨by cases a <;> rfl, by simp⟩
  | cons q qs ih =>
    intro a hx h
    cases a with
    | nil =>
      exfalso
      simp only [List.nil_append, List.isPrefixOf, Bool.and_eq_true, beq_iff_eq] at h
      apply hx
      rw [← h.1]
      exact List.mem_cons_self q qs
    | cons c a' =>
      simp only [List.cons_append, List.isPrefixOf, Bool.and_eq_true, beq_iff_eq] at h
      have hx' : x ∉ qs := fun hm => hx (List.mem_cons_of_mem q hm)
      obtain ⟨h3, h4⟩ := ih a' hx' h.2
      refine ⟨?_, by simpa using Nat.succ_le_succ h4⟩
      simp only [List.isPrefixOf, Bool.and_eq_true, beq_iff_eq]
      exact ⟨h.1, h3⟩

/-- Splitting never produces the empty list of segments. -/
lemma splitOnChar_ne_nil (sep : Char) : ∀ s, splitOnChar sep s ≠ [] := by
  intro s
  induction s with
  | nil => simp [splitOnChar]
  | cons c cs ih =>
    simp only [splitOnChar]
    split
    · simp
    · cases h : splitOnChar sep cs with
      | nil => exact absurd h ih
      | cons l ls => simp

/-- No segment produced by splitting contains the separator. -/
lemma mem_splitOnChar (sep : Char) :
    ∀ (s l : Str), l ∈ splitOnChar sep s → sep ∉ l := by
  intro s
  induction s with
  | nil =>
    intro l hl
    simp only [splitOnChar, List.mem_singleton] at hl
    subst hl
    simp
  | cons c cs ih =>
    intro l hl
    simp only [splitOnChar] at hl
    by_cases hc : c = sep
    · rw [if_pos hc] at hl
      rcases List.mem_cons.mp hl with rfl | h
      · simp
      · exact ih l h
    · rw [if_neg hc] at hl
      cases hsp : splitOnChar sep cs with
      | nil => exact absurd hsp (splitOnChar_ne_nil sep cs)
      | cons m ms =>
        rw [hsp, List.modifyHead_cons] at hl
        rcases List.mem_cons.mp hl with rfl | h
        · intro hmem
          rcases List.mem_cons.mp hmem with h1 | hm
          · exact hc h1.symm
          · exact ih m (by rw [hsp]; exact List.mem_cons_self m ms) hm
        · exact ih l (by rw [hsp]; exact List.mem_cons_of_mem m h)

/-- Splitting a separator-free string yields that single segment. -/
lemma splitOnChar_of_not_mem (sep : Char) :
    ∀ (a : Str), sep ∉ a → splitOnChar sep a = [a] := by
  intro a
  induction a with
  | nil => intro _; rfl
  | cons c cs ih =>
    intro h
    have hc : ¬ c = sep := fun e => h (by rw [e]; exact List.mem_cons_self sep cs)
    simp only [splitOnChar, if_neg hc]
    rw [ih (fun hm => h (List.mem_cons_of_mem c hm))]
    rfl

/-- Splitting after a separator-free head segment peels it off. -/
lemma splitOnChar_append_sep (sep : Char) (b : Str) :
    ∀ (a : Str), sep ∉ a →
      splitOnChar sep (a ++ sep :: b) = a :: splitOnChar sep b := by
  intro a
  induction a with
  | nil =>
    intro _
    simp [splitOnChar]
  | cons c a' ih =>
    intro h
    have hc : ¬ c = sep := fun e => h (by rw [e]; exact List.mem_cons_self sep a')
    simp only [List.cons_append, splitOnChar, if_neg hc, List.append_eq]
    rw [ih (fun hm => h (List.mem_cons_of_mem c hm))]
    rfl

/-- Two-element-or-more step equation for `joinChar`. -/
lemma joinChar_pair (sep : Char) (l m : Str) (ms : List Str) :
    joinChar sep (l :: m :: ms) = l ++ sep :: joinChar sep (m :: ms) := rfl

/-- Singleton equation for `joinChar`. -/
lemma joinChar_one (sep : Char) (l : Str) : joinChar sep [l] = l := rfl

/-- Splitting is a left inverse of joining for separator-free
segments. -/
lemma splitOnChar_joinChar (sep : Char) :
    ∀ (ls : List Str), ls ≠ [] → (∀ l ∈ ls, sep ∉ l) →
      splitOnChar sep (joinChar sep ls) = ls := by
  intro ls
  induction ls with
  | nil => intro h; exact absurd rfl h
  | cons l ls ih =>
    intro _ hall
    cases ls with
    | nil =>
      rw [joinChar_one]
      exact splitOnChar_of_not_mem sep l (hall l (List.mem_cons_self l []))
    | cons m ms =>
      rw [joinChar_pair, splitOnChar_append_sep sep _ l (hall l (List.mem_cons_self l _)),
        ih (by simp) (fun x hx => hall x (List.mem_cons_of_mem l hx))]

/-- Every segment is an infix of its join. -/
lemma mem_joinChar_within (sep : Char) :
    ∀ (ls : List Str) (l : Str), l ∈ ls → l <:+: joinChar sep ls := by
  intro ls
  induction ls with
  | nil => simp
  | cons m ms ih =>
    intro l hl
    rcases List.mem_cons.mp hl with rfl | h
    · cases ms with
      | nil => exact List.infix_rfl
      | cons k ks =>
        rw [joinChar_pair]
        exact (List.prefix_append l (sep :: joinChar sep (k :: ks))).isInfix
    · cases ms with
      | nil => simp at h
      | cons k ks =>
        rw [joinChar_pair]
        have hsuf : joinChar sep (k :: ks) <:+ m ++ sep :: joinChar sep (k :: ks) :=
          ⟨m ++ [sep], by simp⟩
        exact (ih l h).trans hsuf.isInfix

/-- Replacement leaves the empty string empty. -/
lemma pyReplace_nil (p : Char) (ps rep : Str) : pyReplace p ps rep [] = [] := rfl

/-- A head character different from the pattern head is copied
verbatim. -/
lemma pyReplace_head_ne (p : Char) (ps rep : Str) (c : Char) (cs : Str) (h : c ≠ p) :
    pyReplace p ps rep (c :: cs) = c :: pyReplace p ps rep cs := by
  rw [pyReplace_cons, if_neg]
  simp only [List.isPrefixOf, Bool.and_eq_true, beq_iff_eq]
  rintro ⟨e, -⟩
  exact h e.symm

/-- With a non-empty replacement, replacement preserves non-emptiness. -/
lemma pyReplace_ne_nil (p : Char) (ps rep : Str) (c : Char) (cs : Str) (hrep : rep ≠ []) :
    pyReplace p ps rep (c :: cs) ≠ [] := by
  rw [pyReplace_cons]
  split
  · simp [hrep]
  · simp

/-- Bounded-length version: replacement distributes over a separator
character that does not occur in the pattern. -/
lemma pyReplace_sep_split (p : Char) (ps rep : Str) (x : Char) (hx : x ∉ p :: ps) :
    ∀ (n : Nat) (a b : Str), a.length ≤ n →
      pyReplace p ps rep (a ++ x :: b)
        = pyReplace p ps rep a ++ x :: pyReplace p ps rep b := by
  have hxp : x ≠ p := fun e => hx (by rw [e]; exact List.mem_cons_self p ps)
  intro n
  induction n with
  | zero =>
    intro a b ha
    have h0 : a = [] := List.length_eq_zero.mp (Nat.le_zero.mp ha)
    subst h0
    simp only [List.nil_append]
    rw [pyReplace_head_ne p ps rep x b hxp]
    rfl
  | succ n ih =>
    intro a b ha
    cases a with
    | nil =>
      simp only [List.nil_append]
      rw [pyReplace_head_ne p ps rep x b hxp]
      rfl
    | cons c a' =>
      simp only [List.length_cons] at ha
      by_cases hpre : (p :: ps).isPrefixOf (c :: (a' ++ x :: b)) = true
      · have h2 := prefixOf_through_sep x b (p :: ps) (c :: a') hx hpre
        have hle : ps.length ≤ a'.length := by
          have := h2.2
          simp only [List.length_cons] at this
          omega
        rw [List.cons_append, pyReplace_cons, if_pos hpre,
          List.drop_append_of_le_length hle,
          ih (a'.drop ps.length) b (by rw [List.length_drop]; omega),
          pyReplace_cons, if_pos h2.1]
        simp
      · have hpre' : (p :: ps).isPrefixOf (c :: a') = false := by
          cases hq : (p :: ps).isPrefixOf (c :: a') with
          | false => rfl
          | true =>
            exact absurd (by
              have := prefixOf_extend (p :: ps) (c :: a') (x :: b) hq
              simpa using this) hpre
        rw [List.cons_append, pyReplace_cons, if_neg (by simp [hpre]),
          ih a' b (by omega), pyReplace_cons, if_neg (by simp [hpre'])]
        simp

/-- Replacement distributes over a separator character that does not
occur in the pattern. -/
lemma pyReplace_append_sep (p : Char) (ps rep : Str) (x : Char) (hx : x ∉ p :: ps)
    (a b : Str) :
    pyReplace p ps rep (a ++ x :: b)
      = pyReplace p ps rep a ++ x :: pyReplace p ps rep b :=
  pyReplace_sep_split p ps rep x hx a.length a b le_rfl

/-- Characters of the replaced string come from the input or the
replacement. -/
lemma pyReplace_mem (p : Char) (ps rep : Str) :
    ∀ (n : Nat) (s : Str), s.length ≤ n →
      ∀ y ∈ pyReplace p ps rep s, y ∈ s ∨ y ∈ rep := by
  intro n
  induction n with
  | zero =>
    intro s hs
    have h0 : s = [] := List.length_eq_zero.mp (Nat.le_zero.mp hs)
    subst h0
    simp [pyReplace_nil]
  | succ n ih =>
    intro s hs
    cases s with
    | nil => simp [pyReplace_nil]
    | cons c cs =>
      simp only [List.length_cons] at hs
      intro y hy
      rw [pyReplace_cons] at hy
      by_cases hpre : (p :: ps).isPrefixOf (c :: cs) = true
      · rw [if_pos hpre] at hy
        rcases List.mem_append.mp hy with h1 | h1
        · exact Or.inr h1
        · have hlen : (cs.drop ps.length).length ≤ n := by
            rw [List.length_drop]
            omega
          rcases ih (cs.drop ps.length) hlen y h1 with h2 | h2
          · exact Or.inl (List.mem_cons_of_mem c (List.mem_of_mem_drop h2))
          · exact Or.inr h2
      · rw [if_neg hpre] at hy
        rcases List.mem_cons.mp hy with rfl | h1
        · exact Or.inl (List.mem_cons_self y cs)
        · rcases ih cs (by omega) y h1 with h2 | h2
          · exact Or.inl (List.mem_cons_of_mem c h2)
          · exact Or.inr h2

/-- A non-empty tail determines the last element of a cons. -/
lemma getLast?_cons_ne_nil (c : Char) (cs : Str) (h : cs ≠ []) :
    (c :: cs).getLast? = cs.getLast? := by
  have := getLast?_append_right [c] cs h
  simpa using this

/-- Dropping retains the last element when anything remains. -/
lemma getLast?_drop_ne_nil (n : Nat) (l : Str) (h : l.drop n ≠ []) :
    (l.drop n).getLast? = l.getLast? := by
  conv_rhs => rw [← List.take_append_drop n l]
  rw [getLast?_append_right _ _ h]

/-- With a one-character replacement, the last character of the replaced
string is either the replacement character or the input's last
character. -/
lemma pyReplace_getLast (p : Char) (ps : Str) (r : Char) :
    ∀ (n : Nat) (s : Str), s.length ≤ n → s ≠ [] →
      (pyReplace p ps [r] s).getLast? = some r
      ∨ (pyReplace p ps [r] s).getLast? = s.getLast? := by
  intro n
  induction n with
  | zero =>
    intro s hs hne
    exact absurd (List.length_eq_zero.mp (Nat.le_zero.mp hs)) hne
  | succ n ih =>
    intro s hs hne
    cases s with
    | nil => exact absurd rfl hne
    | cons c cs =>
      simp only [List.length_cons] at hs
      rw [pyReplace_cons]
      by_cases hpre : (p :: ps).isPrefixOf (c :: cs) = true
      · rw [if_pos hpre]
        by_cases hd : cs.drop ps.length = []
        · rw [hd, pyReplace_nil]
          exact Or.inl rfl
        · cases he : cs.drop ps.length with
          | nil => exact absurd he hd
          | cons d ds =>
            have hne2 : pyReplace p ps [r] (d :: ds) ≠ [] :=
              pyReplace_ne_nil p ps [r] d ds (by simp)
            rw [getLast?_append_right _ _ hne2]
            have hlen : (d :: ds).length ≤ n := by
              rw [← he, List.length_drop]
              omega
            rcases ih (d :: ds) hlen (by simp) with h1 | h1
            · exact Or.inl h1
            · right
              rw [h1, ← he, getLast?_drop_ne_nil ps.length cs hd,
                getLast?_cons_ne_nil c cs (by rintro rfl; simp at hd)]
      · rw [if_neg hpre]
        by_cases hcs : cs = []
        · subst hcs
          right
          rw [pyReplace_nil]
        · have hne2 : pyReplace p ps [r] cs ≠ [] := by
            cases cs with
            | nil => exact absurd rfl hcs
            | cons d ds => exact pyReplace_ne_nil p ps [r] d ds (by simp)
          rw [getLast?_cons_ne_nil c _ hne2, getLast?_cons_ne_nil c cs hcs]
          exact ih cs (by omega) hcs

/-- Replacement is the identity on strings avoiding the pattern. -/
lemma pyReplace_of_no_match (p : Char) (ps rep : Str) :
    ∀ (n : Nat) (s : Str), s.length ≤ n → ¬ (p :: ps) <:+: s →
      pyReplace p ps rep s = s := by
  intro n
  induction n with
  | zero =>
    intro s hs _
    rw [List.length_eq_zero.mp (Nat.le_zero.mp hs), pyReplace_nil]
  | succ n ih =>
    intro s hs hinf
    cases s with
    | nil => rw [pyReplace_nil]
    | cons c cs =>
      simp only [List.length_cons] at hs
      have hpre : ¬ (p :: ps).isPrefixOf (c :: cs) = true := by
        intro hq
        obtain ⟨t, ht⟩ := (prefixOf_iff_append (p :: ps) (c :: cs)).mp hq
        exact hinf ⟨[], t, by simpa using ht⟩
      rw [pyReplace_cons, if_neg hpre,
        ih cs (by omega) (fun hq => hinf (List.infix_cons hq))]

/-- The dash-strip step only removes a prefix: its result is a suffix of
the input. -/
lemma stripDashSpace_sfx : ∀ (n : Nat) (s : Str), s.length ≤ n → stripDashSpace s <:+ s := by
  intro n
  induction n with
  | zero =>
    intro s hs
    rw [List.length_eq_zero.mp (Nat.le_zero.mp hs)]
    exact List.suffix_rfl
  | succ n ih =>
    intro s hs
    cases s with
    | nil => exact List.suffix_rfl
    | cons c cs =>
      simp only [List.length_cons] at hs
      rw [stripDashSpace_cons]
      split
      · have h1 : stripDashSpace (pyLStrip cs) <:+ pyLStrip cs :=
          ih (pyLStrip cs) (le_trans (pyLStrip_length_le cs) (by omega))
        exact (h1.trans (List.dropWhile_suffix isPySpace)).trans (List.suffix_cons c cs)
      · exact List.suffix_rfl

/-- If the input's head (when any) is not whitespace, the dash-strip
result's head is neither whitespace nor a dash nor a space. -/
lemma stripDashSpace_head :
    ∀ (n : Nat) (s : Str), s.length ≤ n →
      (∀ a as, s = a :: as → isPySpace a = false) →
      ∀ c cs, stripDashSpace s = c :: cs →
        isPySpace c = false ∧ ¬ c = '-' ∧ ¬ c = ' ' := by
  intro n
  induction n with
  | zero =>
    intro s hs _ c cs hres
    rw [List.length_eq_zero.mp (Nat.le_zero.mp hs)] at hres
    exact absurd hres (by simp [stripDashSpace, stripDashSpaceFuel])
  | succ n ih =>
    intro s hs hhead c cs hres
    cases s with
    | nil => exact absurd hres (by simp [stripDashSpace, stripDashSpaceFuel])
    | cons a as =>
      simp only [List.length_cons] at hs
      rw [stripDashSpace_cons] at hres
      by_cases ha : a = '-' ∨ a = ' '
      · rw [if_pos ha] at hres
        exact ih (pyLStrip as) (le_trans (pyLStrip_length_le as) (by omega))
          (fun x xs hx => dropWhile_head_false isPySpace as xs x hx) c cs hres
      · rw [if_neg ha] at hres
        cases hres
        push_neg at ha
        exact ⟨hhead c cs rfl, ha.1, ha.2⟩

/-- Right-stripping only removes a suffix: its result is a prefix of the
input. -/
lemma pyRStrip_pfx (t : Str) : pyRStrip t <+: t := by
  rw [← List.reverse_suffix, pyRStrip, List.reverse_reverse]
  exact List.dropWhile_suffix isPySpace

/-- The head of a stripped string is not whitespace. -/
lemma pyStrip_head (s : Str) (c : Char) (cs : Str) (h : pyStrip s = c :: cs) :
    isPySpace c = false := by
  obtain ⟨t, ht⟩ := pyRStrip_pfx (pyLStrip s)
  rw [pyStrip] at h
  rw [h] at ht
  exact dropWhile_head_false isPySpace s (cs ++ t) c (by simpa using ht.symm)

/-- The last character of a stripped string is not whitespace. -/
lemma pyStrip_getLast (s : Str) (x : Char) (h : (pyStrip s).getLast? = some x) :
    isPySpace x = false := by
  rw [pyStrip, pyRStrip, List.getLast?_reverse] at h
  cases hd : (pyLStrip s).reverse.dropWhile isPySpace with
  | nil => rw [hd] at h; simp at h
  | cons y ys =>
    rw [hd] at h
    simp only [List.head?_cons, Option.some.injEq] at h
    rw [← h]
    exact dropWhile_head_false isPySpace (pyLStrip s).reverse ys y hd

/-- Characters of a stripped string come from the input. -/
lemma pyStrip_subset (s : Str) : ∀ y ∈ pyStrip s, y ∈ s := by
  intro y hy
  exact (List.dropWhile_suffix isPySpace).subset ((pyRStrip_pfx (pyLStrip s)).subset hy)

/-- Characters surviving the dash-strip come from the input. -/
lemma stripDashSpace_subset (s : Str) : ∀ y ∈ stripDashSpace s, y ∈ s := by
  intro y hy
  exact (stripDashSpace_sfx s.length s le_rfl).subset hy

/-- Surviving line contents of `clean_summary`: for each input line that
is non-empty after whitespace stripping, the stripped line with its
leading `-`/space run removed. -/
def cleanContents (s : Str) : List Str :=
  (splitOnChar '\n' s).filterMap (fun line =>
    let stripped := pyStrip line
    if stripped = [] then none else some (stripDashSpace stripped))

/-- `clean_summary` is the final replacement applied to the newline-join
of the `"- "`-prefixed surviving contents. -/
lemma clean_summary_eq_contents (s : Str) :
    clean_summary s
      = pyReplace '-' [' ', '-'] ['-']
          (joinChar '\n' ((cleanContents s).map (fun c => '-' :: ' ' :: c))) := by
  rw [clean_summary, cleanContents]
  congr 1
  rw [List.map_filterMap]
  refine congrArg (joinChar '\n') ?_
  exact congrArg (fun f => List.filterMap f (splitOnChar '\n' s)) (funext fun line => by
    by_cases h : pyStrip line = [] <;> simp [h])

/-- Every surviving content is newline-free, has a non-whitespace,
non-dash, non-space head (when non-empty), and a non-whitespace last
character. -/
lemma cleanContents_spec (s : Str) :
    ∀ c ∈ cleanContents s,
      ('\n' ∉ c)
      ∧ (∀ x xs, c = x :: xs → isPySpace x = false ∧ ¬ x = '-' ∧ ¬ x = ' ')
      ∧ (∀ x, c.getLast? = some x → isPySpace x = false) := by
  intro c hc
  rw [cleanContents, List.mem_filterMap] at hc
  obtain ⟨line, hline, hres⟩ := hc
  by_cases h : pyStrip line = []
  · simp [h] at hres
  · simp only [h, if_false, Option.some.injEq] at hres
    refine ⟨?_, ?_, ?_⟩
    · intro hmem
      rw [← hres] at hmem
      exact mem_splitOnChar '\n' s line hline
        (pyStrip_subset line '\n' (stripDashSpace_subset (pyStrip line) '\n' hmem))
    · intro x xs hx
      exact stripDashSpace_head (pyStrip line).length (pyStrip line) le_rfl
        (fun a as ha => pyStrip_head line a as ha) x xs (by rw [hres]; exact hx)
    · intro x hx
      have hcne : c ≠ [] := by rintro rfl; simp at hx
      have hsfx := stripDashSpace_sfx (pyStrip line).length (pyStrip line) le_rfl
      rw [hres] at hsfx
      obtain ⟨t, ht⟩ := hsfx
      have hlast : (pyStrip line).getLast? = some x := by
        rw [← ht, getLast?_append_right t c hcne, hx]
      exact pyStrip_getLast line x hlast

/-- The final replacement leaves a bullet line's `"- "` prefix intact
when the content does not start with a dash. -/
lemma pyReplace_bullet_line (c : Str) (hc : ∀ x xs, c = x :: xs → ¬ x = '-') :
    pyReplace '-' [' ', '-'] ['-'] ('-' :: ' ' :: c)
      = '-' :: ' ' :: pyReplace '-' [' ', '-'] ['-'] c := by
  rw [pyReplace_cons, if_neg, pyReplace_head_ne '-' [' ', '-'] ['-'] ' ' c (by decide)]
  intro hq
  cases c with
  | nil => simp [List.isPrefixOf] at hq
  | cons x xs =>
    simp only [List.isPrefixOf, Bool.and_eq_true, beq_iff_eq] at hq
    exact hc x xs rfl hq.2.2.1.symm

/-- The final replacement distributes over the newline-join of bullet
lines whose contents do not start with a dash, acting on each content
separately. -/
lemma pyReplace_joinChar_bullets :
    ∀ (contents : List Str),
      (∀ c ∈ contents, ∀ x xs, c = x :: xs → ¬ x = '-') →
      pyReplace '-' [' ', '-'] ['-']
          (joinChar '\n' (contents.map (fun c => '-' :: ' ' :: c)))
        = joinChar '\n'
            (contents.map (fun c => '-' :: ' ' :: pyReplace '-' [' ', '-'] ['-'] c)) := by
  intro contents
  induction contents with
  | nil => intro _; rfl
  | cons c cs ih =>
    intro hall
    have hc : ∀ x xs, c = x :: xs → ¬ x = '-' :=
      fun x xs hx => hall c (List.mem_cons_self c cs) x xs hx
    cases cs with
    | nil =>
      simp only [List.map_cons, List.map_nil, joinChar_one]
      exact pyReplace_bullet_line c hc
    | cons c2 cs2 =>
      simp only [List.map_cons]
      rw [joinChar_pair, joinChar_pair,
        pyReplace_append_sep '-' [' ', '-'] ['-'] '\n' (by decide) _ _,
        pyReplace_bullet_line c hc]
      rw [← List.map_cons (fun c => '-' :: ' ' :: c) c2 cs2,
        ← List.map_cons (fun c => '-' :: ' ' :: pyReplace '-' [' ', '-'] ['-'] c) c2 cs2,
        ih (fun d hd x xs hx => hall d (List.mem_cons_of_mem c hd) x xs hx)]

/-- Master shape of `clean_summary`: a newline-join of `"- "`-prefixed
contents, each content being the dash-stripped surviving line with the
`"- -"`-replacement applied inside it. -/
lemma clean_summary_shape (s : Str) :
    clean_summary s
      = joinChar '\n'
          ((cleanContents s).map
            (fun c => '-' :: ' ' :: pyReplace '-' [' ', '-'] ['-'] c)) := by
  rw [clean_summary_eq_contents]
  exact pyReplace_joinChar_bullets (cleanContents s)
    (fun c hc x xs hx => ((cleanContents_spec s c hc).2.1 x xs hx).2.1)

/-- One surviving content per input line that is non-empty after
whitespace stripping. -/
lemma cleanContents_length (s : Str) :
    (cleanContents s).length
      = ((splitOnChar '\n' s).filter (fun l => !(pyStrip l).isEmpty)).length := by
  have key : ∀ (ls : List Str),
      (ls.filterMap (fun line =>
        if pyStrip line = [] then none else some (stripDashSpace (pyStrip line)))).length
        = (ls.filter (fun l => !(pyStrip l).isEmpty)).length := by
    intro ls
    induction ls with
    | nil => rfl
    | cons a as ih =>
      by_cases h : pyStrip a = [] <;>
        simp [h, List.filterMap_cons, List.isEmpty_iff, ih]
  exact key (splitOnChar '\n' s)

/-- With at least one surviving line, the output lines of
`clean_summary` are exactly the transformed bullet lines. -/
lemma clean_summary_lines (s : Str) (hne : cleanContents s ≠ []) :
    splitOnChar '\n' (clean_summary s)
      = (cleanContents s).map
          (fun c => '-' :: ' ' :: pyReplace '-' [' ', '-'] ['-'] c) := by
  rw [clean_summary_shape]
  refine splitOnChar_joinChar '\n' _ (by simpa using hne) ?_
  intro l hl
  rw [List.mem_map] at hl
  obtain ⟨c, hc, rfl⟩ := hl
  intro hmem
  rcases List.mem_cons.mp hmem with h1 | hmem2
  · exact absurd h1 (by decide)
  · rcases List.mem_cons.mp hmem2 with h1 | hmem3
    · exact absurd h1 (by decide)
    · rcases pyReplace_mem '-' [' ', '-'] ['-'] c.length c le_rfl '\n' hmem3 with h1 | h1
      · exact (cleanContents_spec s c hc).1 h1
      · simp at h1

/-- C4 (amended): every output line of `clean_summary` begins with
exactly one `"- "` marker — it is non-empty, `"- "` is a prefix, and
`"- -"` is not — and there is exactly one output line per input line
that is non-empty after whitespace stripping (so lines that are empty
after the whitespace strip are dropped, while lines emptied only by the
dash-strip survive as bare markers and are counted); when no line
survives the output is empty. -/
theorem c4_bullet_shape (s : Str) :
    ((splitOnChar '\n' s).filter (fun l => !(pyStrip l).isEmpty) = [] →
      clean_summary s = [])
    ∧ ((splitOnChar '\n' s).filter (fun l => !(pyStrip l).isEmpty) ≠ [] →
        (splitOnChar '\n' (clean_summary s)).length
          = ((splitOnChar '\n' s).filter (fun l => !(pyStrip l).isEmpty)).length
        ∧ ∀ l ∈ splitOnChar '\n' (clean_summary s),
            ['-', ' '] <+: l ∧ l ≠ [] ∧ ¬ ['-', ' ', '-'] <+: l) := by
  constructor
  · intro hfil
    have h0 : cleanContents s = [] := by
      have hlen := cleanContents_length s
      rw [hfil] at hlen
      exact List.length_eq_zero.mp (by simpa using hlen)
    rw [clean_summary_shape, h0]
    rfl
  · intro hfil
    have h0 : cleanContents s ≠ [] := by
      intro he
      have hlen := cleanContents_length s
      rw [he] at hlen
      exact hfil (List.length_eq_zero.mp (by simpa using hlen.symm))
    rw [clean_summary_lines s h0]
    constructor
    · rw [List.length_map]
      exact cleanContents_length s
    · intro l hl
      rw [List.mem_map] at hl
      obtain ⟨c, hc, rfl⟩ := hl
      refine ⟨⟨pyReplace '-' [' ', '-'] ['-'] c, rfl⟩, by simp, ?_⟩
      intro hp
      obtain ⟨t, ht⟩ := hp
      have ht2 : pyReplace '-' [' ', '-'] ['-'] c = '-' :: t := by
        simpa using ht.symm
      cases c with
      | nil => rw [pyReplace_nil] at ht2; exact absurd ht2 (by simp)
      | cons x xs =>
        have hx : ¬ x = '-' :=
          ((cleanContents_spec s (x :: xs) hc).2.1 x xs rfl).2.1
        rw [pyReplace_head_ne '-' [' ', '-'] ['-'] x xs hx] at ht2
        exact hx (List.head_eq_of_cons_eq ht2)

/-- C4 witness: on the input "ab" the survivor count and per-line marker
shape hold concretely. -/
theorem c4_bullet_shape_witness :
    (splitOnChar '\n' (clean_summary ['a', 'b'])).length
      = ((splitOnChar '\n' ['a', 'b']).filter (fun l => !(pyStrip l).isEmpty)).length
    ∧ ∀ l ∈ splitOnChar '\n' (clean_summary ['a', 'b']),
        ['-', ' '] <+: l ∧ l ≠ [] ∧ ¬ ['-', ' ', '-'] <+: l :=
  (c4_bullet_shape ['a', 'b']).2 (by decide)

/-- Left-stripping keeps a non-whitespace head. -/
lemma pyLStrip_of_head (a : Char) (l : Str) (h : isPySpace a = false) :
    pyLStrip (a :: l) = a :: l := by
  simp [pyLStrip, List.dropWhile, h]

/-- Left-stripping drops a whitespace head. -/
lemma pyLStrip_cons_space (a : Char) (l : Str) (h : isPySpace a = true) :
    pyLStrip (a :: l) = pyLStrip l := by
  simp [pyLStrip, List.dropWhile, h]

/-- Right-stripping keeps a string whose last character is not
whitespace. -/
lemma pyRStrip_of_last (t : Str) (hne : t ≠ [])
    (h : ∀ y, t.getLast? = some y → isPySpace y = false) : pyRStrip t = t := by
  rw [pyRStrip]
  cases hr : t.reverse with
  | nil => exact absurd (by simpa using congrArg List.reverse hr) hne
  | cons y ys =>
    have hy : isPySpace y = false := by
      refine h y ?_
      rw [← List.reverse_reverse t, List.getLast?_reverse, hr]
      rfl
    rw [List.dropWhile_cons_of_neg (by simp [hy]), ← hr, List.reverse_reverse]

/-- The dash-strip of a canonical bullet line recovers its content. -/
lemma stripDashSpace_bullet (x : Char) (t : Str)
    (hxs : isPySpace x = false) (hxd : ¬ x = '-') (hxsp : ¬ x = ' ') :
    stripDashSpace ('-' :: ' ' :: x :: t) = x :: t := by
  rw [stripDashSpace_cons, if_pos (Or.inl rfl),
    pyLStrip_cons_space ' ' (x :: t) (by decide),
    pyLStrip_of_head x t hxs, stripDashSpace_cons,
    if_neg (by push_neg; exact ⟨hxd, hxsp⟩)]

/-- Mapping then filter-mapping collapses to a plain map when the
filter accepts every mapped element. -/
lemma filterMap_map_eq_map (m f : Str → Str) (g : Str → Option Str) :
    ∀ (ls : List Str), (∀ x ∈ ls, g (m x) = some (f x)) →
      (ls.map m).filterMap g = ls.map f := by
  intro ls
  induction ls with
  | nil => intro _; rfl
  | cons a as ih =>
    intro hall
    rw [List.map_cons, List.filterMap_cons, hall a (List.mem_cons_self a as),
      List.map_cons, ih (fun x hx => hall x (List.mem_cons_of_mem a hx))]

/-- Reprocessing the cleaned output recovers, line by line, exactly the
replaced contents of the first pass. -/
lemma cleanContents_of_clean (s : Str) (h0 : cleanContents s ≠ []) :
    cleanContents (clean_summary s)
      = (cleanContents s).map (pyReplace '-' [' ', '-'] ['-']) := by
  rw [cleanContents, clean_summary_lines s h0]
  refine filterMap_map_eq_map _ (pyReplace '-' [' ', '-'] ['-']) _ (cleanContents s) ?_
  intro c hc
  have spec := cleanContents_spec s c hc
  cases c with
  | nil => decide
  | cons x xs =>
    obtain ⟨hxs, hxd, hxsp⟩ := spec.2.1 x xs rfl
    have hd : pyReplace '-' [' ', '-'] ['-'] (x :: xs)
        = x :: pyReplace '-' [' ', '-'] ['-'] xs :=
      pyReplace_head_ne '-' [' ', '-'] ['-'] x xs hxd
    rw [hd]
    have hlast : ∀ y,
        ('-' :: ' ' :: x :: pyReplace '-' [' ', '-'] ['-'] xs).getLast? = some y →
          isPySpace y = false := by
      intro y hy
      rw [getLast?_cons_ne_nil '-' _ (by simp), getLast?_cons_ne_nil ' ' _ (by simp),
        ← hd] at hy
      rcases pyReplace_getLast '-' [' ', '-'] '-' (x :: xs).length (x :: xs) le_rfl
        (by simp) with h1 | h1
      · rw [h1] at hy
        cases hy
        decide
      · rw [h1] at hy
        exact spec.2.2 y hy
    have hstrip : pyStrip ('-' :: ' ' :: x :: pyReplace '-' [' ', '-'] ['-'] xs)
        = '-' :: ' ' :: x :: pyReplace '-' [' ', '-'] ['-'] xs := by
      rw [pyStrip, pyLStrip_of_head '-' _ (by decide),
        pyRStrip_of_last _ (by simp) hlast]
    show (let stripped := pyStrip ('-' :: ' ' :: x :: pyReplace '-' [' ', '-'] ['-'] xs);
      if stripped = [] then none else some (stripDashSpace stripped))
      = some (x :: pyReplace '-' [' ', '-'] ['-'] xs)
    rw [hstrip]
    simp only [if_neg (by simp : ¬ ('-' :: ' ' :: x :: pyReplace '-' [' ', '-'] ['-'] xs) = [])]
    rw [stripDashSpace_bullet x _ hxs hxd hxsp]

/-- C5 (amended): `clean_summary` is idempotent on every input whose
cleaned output contains no residual `"- -"` occurrence; the single
left-to-right replacement pass is what breaks idempotence in general. -/
theorem c5_idempotent_of_no_residue (s : Str)
    (h : ¬ ['-', ' ', '-'] <:+: clean_summary s) :
    clean_summary (clean_summary s) = clean_summary s := by
  by_cases h0 : cleanContents s = []
  · have he : clean_summary s = [] := by
      rw [clean_summary_shape, h0]
      rfl
    rw [he]
    decide
  · have hnomatch : ∀ c ∈ cleanContents s,
        ¬ ['-', ' ', '-'] <:+: pyReplace '-' [' ', '-'] ['-'] c := by
      intro c hc hpat
      apply h
      have h1 : pyReplace '-' [' ', '-'] ['-'] c
          <:+: ('-' :: ' ' :: pyReplace '-' [' ', '-'] ['-'] c) :=
        ⟨['-', ' '], [], by simp⟩
      have h2 : ('-' :: ' ' :: pyReplace '-' [' ', '-'] ['-'] c)
          <:+: clean_summary s := by
        rw [clean_summary_shape]
        exact mem_joinChar_within '\n' _ _ (List.mem_map_of_mem _ hc)
      exact hpat.trans (h1.trans h2)
    rw [clean_summary_shape (clean_summary s), cleanContents_of_clean s h0,
      clean_summary_shape s, List.map_map]
    refine congrArg (joinChar '\n') (List.map_congr_left ?_)
    intro c hc
    show '-' :: ' ' :: pyReplace '-' [' ', '-'] ['-'] (pyReplace '-' [' ', '-'] ['-'] c)
      = '-' :: ' ' :: pyReplace '-' [' ', '-'] ['-'] c
    rw [pyReplace_of_no_match '-' [' ', '-'] ['-']
      (pyReplace '-' [' ', '-'] ['-'] c).length _ le_rfl (hnomatch c hc)]

/-- C5 witness: "hello\n-  world" cleans to "- hello\n- world", which
has no residual "- -", and a second cleaning leaves it unchanged. -/
theorem c5_idempotent_of_no_residue_witness :
    clean_summary (clean_summary "hello\n-  world".toList)
      = clean_summary "hello\n-  world".toList :=
  c5_idempotent_of_no_residue "hello\n-  world".toList (by decide)
